import Mathlib

/-!
Verification of the dense-polynomial arithmetic engine of
src/Math/Polynomial.h, shallowly embedded over the coefficient field ℚ.

A polynomial value is its coefficient list (`coeffs`, low-to-high order),
exactly as stored by the C++ class.  Every vector access the C++ performs
is modelled; an access outside the vector's bounds (undefined behavior in
the C++) makes the modelled operation return `none`.  The int-typed sizes
of the C++ are modelled by `Int`/`ℕ`.  The externally supplied fast
transform (FFT.h, not part of the sources) is modelled from the spec as
an exact convolution.
-/

open Polynomial

namespace PolySpec

/-- The loop of `Polynomial::shorten`, acting on the reversed coefficient
list: `while (coeffs.back() == 0 && coeffs.size() > 1) coeffs.pop_back();`. -/
def shortenAux : List ℚ → List ℚ
  | [] => []
  | [a] => [a]
  | a :: rest => if a = 0 then shortenAux rest else a :: rest

/-- Total version of `shorten` (the result of the loop on a nonempty list). -/
def shortenFn (p : List ℚ) : List ℚ := (shortenAux p.reverse).reverse

/-- `Polynomial::shorten`.  On an empty coefficient vector the C++ calls
`coeffs.back()` on an empty `std::vector` (undefined behavior): `none`. -/
def shorten : List ℚ → Option (List ℚ)
  | [] => none
  | a :: t => some (shortenFn (a :: t))

/-- Canonical form of a coefficient list: nonempty and with no trailing
zero coefficient unless the length is exactly 1. -/
def canonical (p : List ℚ) : Prop :=
  p ≠ [] ∧ (p.length = 1 ∨ p.getLast? ≠ some 0)

instance (p : List ℚ) : Decidable (canonical p) :=
  decidable_of_iff (p ≠ [] ∧ (p.length = 1 ∨ p.getLast? ≠ some 0)) Iff.rfl

/-- Nonempty with a nonzero last coefficient (canonical and not the zero
polynomial). -/
def goodP (p : List ℚ) : Prop := p ≠ [] ∧ p.getLast? ≠ some 0

instance (p : List ℚ) : Decidable (goodP p) :=
  decidable_of_iff (p ≠ [] ∧ p.getLast? ≠ some 0) Iff.rfl

/-- `coeffs.resize(n)` when `n ≥ coeffs.size()`: pad with value-initialized
(zero) elements. -/
def padTo (a : List ℚ) (n : ℕ) : List ℚ := a ++ List.replicate (n - a.length) 0

/-- `operator+=` / `operator+`: the receiver is resized to
`max(coeffs.size(), other.coeffs.size())` and the loop then reads
`other.coeffs[i]` for every `i` below that maximum — out of bounds
(undefined behavior, hence `none`) whenever `other` is the shorter list. -/
def addM (a b : List ℚ) : Option (List ℚ) :=
  if b.length < max a.length b.length then none
  else shorten (List.zipWith (· + ·) (padTo a (max a.length b.length)) b)

/-- `operator-=` / `operator-`, with the same out-of-bounds read as `addM`. -/
def subM (a b : List ℚ) : Option (List ℚ) :=
  if b.length < max a.length b.length then none
  else shorten (List.zipWith (· - ·) (padTo a (max a.length b.length)) b)

/-- `operator*=(T const& x)`: scalar multiplication, then `shorten`. -/
def smulM (x : ℚ) (p : List ℚ) : Option (List ℚ) :=
  shorten (p.map (· * x))

/-- `operator/=(T const& x)`: defined as `*this *= (1 / x)`. -/
def sdivM (x : ℚ) (p : List ℚ) : Option (List ℚ) := smulM (1 / x) p

/-- `Polynomial::deg()`: the length of the coefficient vector, except that
a length-1 vector reports 1 for a nonzero coefficient and 0 otherwise. -/
def deg (p : List ℚ) : ℕ :=
  match p with
  | [a] => if a = 0 then 0 else 1
  | _ => p.length

/-- Coefficient `k` of the convolution of `a` and `b` (the value index `k`
of the result buffer accumulates in `multiply_brute_force`). -/
def convCoeff (a b : List ℚ) (k : ℕ) : ℚ :=
  ∑ i in Finset.range (k + 1), a.getD i 0 * b.getD (k - i) 0

/-- `multiply_brute_force`'s result buffer of size `sz`, index `k` holding
the accumulated products `a[i]*b[j]` with `i+j = k`.  Meaningful only when
every written index `i+j` is below `sz`; `mulM` checks that. -/
def multiply_brute_force (a b : List ℚ) (sz : ℕ) : List ℚ :=
  (List.range sz).map (convCoeff a b)

/-- Modelled from the spec: `fft_multiply` of FFT.h (a source file not in
the repository snapshot) returns the exact convolution of the two
coefficient sequences, un-truncated. -/
def fft_multiply (a b : List ℚ) : List ℚ :=
  (List.range (a.length + b.length - 1)).map (convCoeff a b)

/-- `operator*=(Polynomial const&)`: brute force into a buffer of size
`deg() + other.deg() - 1` when that bound is at most 200, else the fast
transform; then `shorten`.  A negative buffer size, or a brute-force write
at an index `i+j` not below the buffer size, is out of bounds: `none`. -/
def mulM (a b : List ℚ) : Option (List ℚ) :=
  if (deg a : Int) + (deg b : Int) - 1 ≤ 200 then
    if 0 ≤ (deg a : Int) + (deg b : Int) - 1 then
      if a.length = 0 ∨ b.length = 0 ∨
          a.length + b.length ≤ ((deg a : Int) + (deg b : Int) - 1).toNat + 1 then
        shorten (multiply_brute_force a b ((deg a : Int) + (deg b : Int) - 1).toNat)
      else none
    else none
  else shorten (fft_multiply a b)

/-- `Polynomial::evaluate`, Horner's method. -/
def evaluate (p : List ℚ) (x : ℚ) : ℚ :=
  p.foldr (fun c res => res * x + c) 0

/-- `Polynomial::derivation`: `cpy[i-1] = cpy[i] * i` for `i = 1 .. size-1`
followed by `cpy.pop_back()`.  `pop_back` on an empty vector is undefined
behavior (`none`); on a length-1 vector the result is the empty list. -/
def derivation : List ℚ → Option (List ℚ)
  | [] => none
  | _ :: t => some (t.mapIdx fun i c => c * ((i + 1 : ℕ) : ℚ))

/-- `operator%(int n)`: the first `n` coefficients.  `n == 0` yields `{0}`;
the guard `coeffs.size() <= n` compares `size_t` with `int`, so a negative
`n` converts to a huge unsigned value and the polynomial is returned
unchanged; otherwise take `n` coefficients and `shorten`. -/
def truncMod (p : List ℚ) (n : Int) : List ℚ :=
  if n = 0 then [0]
  else if n < 0 then p
  else if p.length ≤ n.toNat then p
  else shortenFn (p.take n.toNat)

/-- `Polynomial::rev`: the reversed coefficient list, then `shorten` (which
is undefined behavior on an empty vector). -/
def rev (p : List ℚ) : Option (List ℚ) := shorten p.reverse

/-- The `while (sz < n)` loop of `Polynomial::reciprocal`:
`sz *= 2; R = R * 2 - R * R * (*this % sz);`.  The fuel argument only
bounds the number of iterations; `reciprocal` passes enough fuel for
every terminating run of the C++ loop. -/
def reciprocalLoop (p : List ℚ) (n : Int) : ℕ → ℕ → List ℚ → Option (List ℚ)
  | 0, sz, R => if (sz : Int) < n then none else some R
  | fuel + 1, sz, R =>
    if (sz : Int) < n then
      (smulM 2 R).bind fun A =>
      (mulM R R).bind fun RR =>
      (mulM RR (truncMod p ((2 * sz : ℕ) : Int))).bind fun B =>
      (subM A B).bind fun R2 =>
      reciprocalLoop p n fuel (2 * sz) R2
    else some R

/-- `Polynomial::reciprocal(int n)`: asserts a nonzero constant
coefficient (reading `coeffs[0]` of an empty vector is out of bounds),
starts from `R = {1 / coeffs[0]}` and `sz = 1`, runs the doubling loop,
and returns `R % n`. -/
def reciprocal (p : List ℚ) (n : Int) : Option (List ℚ) :=
  match p with
  | [] => none
  | c :: _ =>
    if c = 0 then none
    else (reciprocalLoop p n (n.toNat + 1) 1 [1 / c]).map fun R => truncMod R n

/-- `Polynomial::divide`: `n = deg() - g.deg() + 1`, then
`(rev() * g.rev().reciprocal(n) % n).rev()`. -/
def divide (f g : List ℚ) : Option (List ℚ) :=
  (rev f).bind fun rf =>
  (rev g).bind fun rg =>
  (reciprocal rg ((deg f : Int) - (deg g : Int) + 1)).bind fun R =>
  (mulM rf R).bind fun w =>
  rev (truncMod w ((deg f : Int) - (deg g : Int) + 1))

/-- `Polynomial::divide_modulo`: quotient `q = divide(g)` and remainder
`r = *this - g * q`. -/
def divide_modulo (f g : List ℚ) : Option (List ℚ × List ℚ) :=
  (divide f g).bind fun q =>
  (mulM g q).bind fun gq =>
  (subM f gq).map fun r => (q, r)

/-- Point update of the heap-indexed tree array. -/
def updateT (t : ℕ → List ℚ) (v : ℕ) (p : List ℚ) : ℕ → List ℚ :=
  fun w => if w = v then p else t w

/-- The tree-storing `linear_factors_product(roots, tree, v, l, r)`:
a leaf stores `{-roots[l], 1}`; an inner node multiplies its children's
products and stores the result at heap index `v`.  The tree array has
`4 * nn` entries (an index at or beyond that is out of bounds) and starts
default-constructed (empty coefficient lists).  The fuel bounds the
recursion depth; an empty range recurses forever in the C++, which the
fuel turns into `none`. -/
def linear_factors_product (x : List ℚ) (nn : ℕ) :
    ℕ → ℕ → ℕ → ℕ → (ℕ → List ℚ) → Option ((ℕ → List ℚ) × List ℚ)
  | 0, _, _, _, _ => none
  | fuel + 1, v, l, r, t =>
    if l + 1 = r then
      if l < x.length ∧ v < 4 * nn then
        some (updateT t v [-(x.getD l 0), 1], [-(x.getD l 0), 1])
      else none
    else
      (linear_factors_product x nn fuel (2 * v) l ((l + r) / 2) t).bind fun tp1 =>
      (linear_factors_product x nn fuel (2 * v + 1) ((l + r) / 2) r tp1.1).bind fun tp2 =>
      (mulM tp1.2 tp2.2).bind fun pol =>
      if v < 4 * nn then some (updateT tp2.1 v pol, pol) else none

/-- The recursive `multi_point_evaluation(x, tree, v, l, r)`: a single
point is evaluated by Horner's method; otherwise the current polynomial
is reduced modulo each child's stored polynomial and the two recursions'
results are concatenated left-to-right. -/
def multi_point_evaluation_rec (x : List ℚ) (nn : ℕ) (t : ℕ → List ℚ) :
    ℕ → List ℚ → ℕ → ℕ → ℕ → Option (List ℚ)
  | 0, _, _, _, _ => none
  | fuel + 1, f, v, l, r =>
    if l + 1 = r then
      if l < x.length then some [evaluate f (x.getD l 0)] else none
    else
      if 2 * v + 1 < 4 * nn then
        (divide_modulo f (t (2 * v))).bind fun qr1 =>
        (divide_modulo f (t (2 * v + 1))).bind fun qr2 =>
        (multi_point_evaluation_rec x nn t fuel qr1.2 (2 * v) l ((l + r) / 2)).bind fun res1 =>
        (multi_point_evaluation_rec x nn t fuel qr2.2 (2 * v + 1) ((l + r) / 2) r).bind fun res2 =>
        some (res1 ++ res2)
      else none

/-- The driver `multi_point_evaluation(x)`: build the remainder tree over
the points (`tree` has `4 n` default-constructed entries), then run the
recursive evaluation from the root.  The fuel `n + 1` exceeds the depth of
every terminating run of the C++ recursion. -/
def multi_point_evaluation (f x : List ℚ) : Option (List ℚ) :=
  (linear_factors_product x x.length (x.length + 1) 1 0 x.length (fun _ => [])).bind fun tp =>
  multi_point_evaluation_rec x x.length tp.1 (x.length + 1) f 1 0 x.length

/-- Interpretation of a coefficient list as a polynomial of `ℚ[X]`. -/
noncomputable def toPoly : List ℚ → ℚ[X]
  | [] => 0
  | c :: t => C c + toPoly t * X

/-- Heap-index reachability: `w` lies in the subtree rooted at `v`. -/
def inSubtree (v w : ℕ) : Prop := ∃ k, w / 2 ^ k = v

/-- The facts the evaluation phase needs about a built remainder tree:
at every inner node covering `[l, r)`, each child's stored polynomial
vanishes on the child's half of the evaluation points. -/
inductive VT (x : List ℚ) : (ℕ → List ℚ) → ℕ → ℕ → ℕ → Prop
  | leaf (t : ℕ → List ℚ) (v l : ℕ) : VT x t v l (l + 1)
  | node (t : ℕ → List ℚ) (v l r : ℕ) :
      l + 1 < r →
      (∀ i, l ≤ i → i < (l + r) / 2 → evaluate (t (2 * v)) (x.getD i 0) = 0) →
      (∀ i, (l + r) / 2 ≤ i → i < r → evaluate (t (2 * v + 1)) (x.getD i 0) = 0) →
      VT x t (2 * v) l ((l + r) / 2) →
      VT x t (2 * v + 1) ((l + r) / 2) r →
      VT x t v l r

/-! ### Interpretation basics -/

@[simp]
lemma toPoly_nil : toPoly [] = 0 := rfl

@[simp]
lemma toPoly_cons (c : ℚ) (t : List ℚ) : toPoly (c :: t) = C c + toPoly t * X := rfl

lemma toPoly_coeff (l : List ℚ) (k : ℕ) : (toPoly l).coeff k = l.getD k 0 := by
  induction l generalizing k with
  | nil => simp
  | cons c t ih =>
    cases k with
    | zero => simp [coeff_mul_X_zero]
    | succ k => simp [coeff_mul_X, ih]

lemma toPoly_eq_of_getD {a b : List ℚ} (h : ∀ k, a.getD k 0 = b.getD k 0) :
    toPoly a = toPoly b := by
  ext k
  rw [toPoly_coeff, toPoly_coeff]
  exact h k

lemma toPoly_append (s t : List ℚ) :
    toPoly (s ++ t) = toPoly s + toPoly t * X ^ s.length := by
  induction s with
  | nil => simp
  | cons c s ih => simp [ih]; ring

lemma toPoly_coeff_eq_zero {l : List ℚ} {k : ℕ} (h : l.length ≤ k) :
    (toPoly l).coeff k = 0 := by
  rw [toPoly_coeff]
  exact List.getD_eq_default _ _ h

lemma natDegree_toPoly_lt {l : List ℚ} (h : l ≠ []) :
    (toPoly l).natDegree < l.length := by
  rcases Nat.exists_eq_succ_of_ne_zero (fun h0 => h (List.length_eq_zero.mp h0)) with ⟨m, hm⟩
  rw [hm, Nat.lt_succ_iff, natDegree_le_iff_coeff_eq_zero]
  intro k hk
  exact toPoly_coeff_eq_zero (by omega)

lemma evaluate_toPoly (l : List ℚ) (x : ℚ) : evaluate l x = (toPoly l).eval x := by
  induction l with
  | nil => simp [evaluate]
  | cons c t ih =>
    simp only [evaluate, List.foldr] at ih ⊢
    simp [ih]
    ring

/-! ### `shorten` -/

lemma shortenAux_ne_nil {l : List ℚ} (h : l ≠ []) : shortenAux l ≠ [] := by
  induction l with
  | nil => exact absurd rfl h
  | cons a t ih =>
    cases t with
    | nil => simp [shortenAux]
    | cons b t2 =>
      by_cases ha : a = 0
      · simpa [shortenAux, ha] using ih (by simp)
      · simp [shortenAux, ha]

lemma shortenAux_head {l : List ℚ} (h : l ≠ []) :
    (shortenAux l).length = 1 ∨ (shortenAux l).head? ≠ some 0 := by
  induction l with
  | nil => exact absurd rfl h
  | cons a t ih =>
    cases t with
    | nil => left; simp [shortenAux]
    | cons b t2 =>
      by_cases ha : a = 0
      · simpa [shortenAux, ha] using ih (by simp)
      · right; simp [shortenAux, ha]

lemma toPoly_reverse_shortenAux (l : List ℚ) :
    toPoly (shortenAux l).reverse = toPoly l.reverse := by
  induction l with
  | nil => rfl
  | cons a t ih =>
    cases t with
    | nil => rfl
    | cons b t2 =>
      by_cases ha : a = 0
      · rw [show shortenAux (a :: b :: t2) = shortenAux (b :: t2) by simp [shortenAux, ha], ih]
        simp [toPoly_append, ha]
      · simp [shortenAux, ha]

lemma toPoly_shortenFn (p : List ℚ) : toPoly (shortenFn p) = toPoly p := by
  have := toPoly_reverse_shortenAux p.reverse
  rwa [List.reverse_reverse] at this

lemma shortenFn_ne_nil {p : List ℚ} (h : p ≠ []) : shortenFn p ≠ [] := by
  intro hc
  have h1 : shortenAux p.reverse ≠ [] := shortenAux_ne_nil (by simpa using h)
  exact h1 (by simpa [shortenFn] using congrArg List.reverse hc)

lemma canonical_shortenFn {p : List ℚ} (h : p ≠ []) : canonical (shortenFn p) := by
  refine ⟨shortenFn_ne_nil h, ?_⟩
  have h1 := shortenAux_head (l := p.reverse) (by simpa using h)
  rcases h1 with h1 | h1
  · left; simpa [shortenFn] using h1
  · right
    rw [shortenFn, List.getLast?_reverse]
    exact h1

lemma length_shortenFn_le (p : List ℚ) : (shortenFn p).length ≤ p.length := by
  have : ∀ l : List ℚ, (shortenAux l).length ≤ l.length := by
    intro l
    induction l with
    | nil => simp [shortenAux]
    | cons a t ih =>
      cases t with
      | nil => simp [shortenAux]
      | cons b t2 =>
        by_cases ha : a = 0
        · simp only [shortenAux, ha, if_true]
          exact le_trans ih (by simp)
        · simp [shortenAux, ha]
  simpa [shortenFn] using this p.reverse

lemma shorten_eq_some {p : List ℚ} (h : p ≠ []) : shorten p = some (shortenFn p) := by
  cases p with
  | nil => exact absurd rfl h
  | cons a t => rfl

lemma shorten_sem {p q : List ℚ} (h : shorten p = some q) :
    q = shortenFn p ∧ p ≠ [] := by
  cases p with
  | nil => simp [shorten] at h
  | cons a t =>
    refine ⟨?_, by simp⟩
    simpa [shorten] using h.symm

lemma shorten_canonical {p q : List ℚ} (h : shorten p = some q) : canonical q := by
  obtain ⟨hq, hp⟩ := shorten_sem h
  exact hq ▸ canonical_shortenFn hp

lemma shorten_toPoly {p q : List ℚ} (h : shorten p = some q) : toPoly q = toPoly p := by
  obtain ⟨hq, hp⟩ := shorten_sem h
  rw [hq, toPoly_shortenFn]

/-! ### `canonical` and `goodP` -/

lemma goodP_canonical {p : List ℚ} (h : goodP p) : canonical p := ⟨h.1, Or.inr h.2⟩

lemma getLast?_getD {p : List ℚ} (h : p ≠ []) :
    p.getLast? = some (p.getD (p.length - 1) 0) := by
  rcases List.exists_cons_of_ne_nil h with ⟨a, t, rfl⟩
  rw [List.getLast?_eq_getElem?]
  simp only [List.getD_eq_getElem?_getD]
  have hlt : (a :: t).length - 1 < (a :: t).length := by simp
  rw [List.getElem?_eq_getElem hlt]
  rfl

lemma goodP_toPoly_ne_zero {p : List ℚ} (h : goodP p) : toPoly p ≠ 0 := by
  intro hc
  obtain ⟨h1, h2⟩ := h
  rw [getLast?_getD h1] at h2
  apply h2
  have := toPoly_coeff p (p.length - 1)
  rw [hc] at this
  simp only [coeff_zero] at this
  rw [← this]

lemma goodP_natDegree {p : List ℚ} (h : goodP p) :
    (toPoly p).natDegree = p.length - 1 := by
  have hlt := natDegree_toPoly_lt h.1
  have hcoeff : (toPoly p).coeff (p.length - 1) ≠ 0 := by
    rw [toPoly_coeff]
    intro hc
    exact h.2 (by rw [getLast?_getD h.1, hc])
  exact le_antisymm (by omega) (le_natDegree_of_ne_zero hcoeff)

lemma goodP_length {p : List ℚ} (h : goodP p) :
    p.length = (toPoly p).natDegree + 1 := by
  have h1 := goodP_natDegree h
  have h2 : p.length ≠ 0 := fun hc => h.1 (List.length_eq_zero.mp hc)
  omega

lemma goodP_iff {p : List ℚ} : goodP p ↔ canonical p ∧ toPoly p ≠ 0 := by
  constructor
  · exact fun h => ⟨goodP_canonical h, goodP_toPoly_ne_zero h⟩
  · rintro ⟨⟨h1, h2⟩, h3⟩
    refine ⟨h1, ?_⟩
    rcases h2 with h2 | h2
    · rcases List.length_eq_one.mp h2 with ⟨c, rfl⟩
      have hc : c ≠ 0 := by
        intro hc
        exact h3 (by simp [hc])
      simpa using hc
    · exact h2

/-! ### Convolution and multiplication -/

lemma toPoly_mul_coeff (a b : List ℚ) (k : ℕ) :
    (toPoly a * toPoly b).coeff k = convCoeff a b k := by
  rw [coeff_mul, convCoeff, Finset.Nat.sum_antidiagonal_eq_sum_range_succ_mk]
  refine Finset.sum_congr rfl fun i _ => ?_
  rw [toPoly_coeff, toPoly_coeff]

lemma convCoeff_eq_zero {a b : List ℚ} {k : ℕ} (h : a.length + b.length ≤ k + 1) :
    convCoeff a b k = 0 := by
  refine Finset.sum_eq_zero fun i hi => ?_
  rw [Finset.mem_range] at hi
  by_cases hia : i < a.length
  · rw [List.getD_eq_default _ _ (show b.length ≤ k - i by omega), mul_zero]
  · rw [List.getD_eq_default _ _ (by omega), zero_mul]

lemma convCoeff_of_nil_left {a : List ℚ} (h : a.length = 0) (b : List ℚ) (k : ℕ) :
    convCoeff a b k = 0 := by
  refine Finset.sum_eq_zero fun i _ => ?_
  rw [List.getD_eq_default _ _ (by omega), zero_mul]

lemma convCoeff_of_nil_right {b : List ℚ} (h : b.length = 0) (a : List ℚ) (k : ℕ) :
    convCoeff a b k = 0 := by
  refine Finset.sum_eq_zero fun i _ => ?_
  rw [show b.getD (k - i) 0 = 0 from List.getD_eq_default _ _ (by omega), mul_zero]

lemma getD_map_range (f : ℕ → ℚ) (sz k : ℕ) :
    ((List.range sz).map f).getD k 0 = if k < sz then f k else 0 := by
  rw [List.getD_eq_getElem?_getD, List.getElem?_map]
  by_cases h : k < sz
  · rw [List.getElem?_range h]
    simp [h]
  · rw [List.getElem?_eq_none (by simpa using not_lt.mp h)]
    simp [h]

lemma toPoly_multiply_brute_force {a b : List ℚ} {sz : ℕ}
    (h : a.length = 0 ∨ b.length = 0 ∨ a.length + b.length ≤ sz + 1) :
    toPoly (multiply_brute_force a b sz) = toPoly a * toPoly b := by
  ext k
  rw [toPoly_coeff, toPoly_mul_coeff, multiply_brute_force, getD_map_range]
  by_cases hk : k < sz
  · simp [hk]
  · simp only [hk, if_false]
    symm
    rcases h with h | h | h
    · exact convCoeff_of_nil_left h b k
    · exact convCoeff_of_nil_right h a k
    · exact convCoeff_eq_zero (by omega)

lemma fft_multiply_eq (a b : List ℚ) :
    fft_multiply a b = multiply_brute_force a b (a.length + b.length - 1) := rfl

lemma toPoly_fft_multiply (a b : List ℚ) :
    toPoly (fft_multiply a b) = toPoly a * toPoly b := by
  rw [fft_multiply_eq]
  exact toPoly_multiply_brute_force (by omega)

lemma mulM_sem {a b c : List ℚ} (h : mulM a b = some c) :
    toPoly c = toPoly a * toPoly b := by
  unfold mulM at h
  split_ifs at h with h1 h2 h3
  · rw [shorten_toPoly h, toPoly_multiply_brute_force h3]
  · rw [shorten_toPoly h, toPoly_fft_multiply]

lemma mulM_canonical {a b c : List ℚ} (h : mulM a b = some c) : canonical c := by
  unfold mulM at h
  split_ifs at h with h1 h2 h3
  · exact shorten_canonical h
  · exact shorten_canonical h

/-! ### `deg` -/

lemma deg_le_length (p : List ℚ) : deg p ≤ p.length := by
  match p with
  | [] => exact le_refl 0
  | [a] =>
    by_cases ha : a = 0 <;> simp [deg, ha]
  | a :: b :: t => exact le_refl _

lemma deg_eq_length {p : List ℚ} (h : goodP p) : deg p = p.length := by
  match p with
  | [] => exact absurd rfl h.1
  | [a] =>
    have ha : a ≠ 0 := by simpa [goodP] using h.2
    simp [deg, ha]
  | a :: b :: t => rfl

lemma mulM_eq_of_goodP {a b : List ℚ} (ha : goodP a) (hb : goodP b) :
    mulM a b = shorten (multiply_brute_force a b (a.length + b.length - 1)) := by
  have hla : 1 ≤ a.length := List.length_pos.mpr ha.1
  have hlb : 1 ≤ b.length := List.length_pos.mpr hb.1
  have hda := deg_eq_length ha
  have hdb := deg_eq_length hb
  unfold mulM
  rw [hda, hdb]
  have htn : ((a.length : Int) + (b.length : Int) - 1).toNat = a.length + b.length - 1 := by
    omega
  split_ifs with h1 h2 h3
  · rw [htn]
  · exact absurd h3 (by push_neg; omega)
  · exact absurd h2 (by omega)
  · rw [fft_multiply_eq]

lemma multiply_brute_force_ne_nil {a b : List ℚ} (ha : a ≠ []) (hb : b ≠ []) :
    multiply_brute_force a b (a.length + b.length - 1) ≠ [] := by
  have hla : 1 ≤ a.length := List.length_pos.mpr ha
  have hlb : 1 ≤ b.length := List.length_pos.mpr hb
  have : (multiply_brute_force a b (a.length + b.length - 1)).length =
      a.length + b.length - 1 := by
    simp [multiply_brute_force]
  intro hc
  rw [hc] at this
  simp at this
  omega

lemma mulM_some_of_goodP {a b : List ℚ} (ha : goodP a) (hb : goodP b) :
    mulM a b = some (shortenFn (multiply_brute_force a b (a.length + b.length - 1))) := by
  rw [mulM_eq_of_goodP ha hb, shorten_eq_some (multiply_brute_force_ne_nil ha.1 hb.1)]

lemma goodP_mulM {a b c : List ℚ} (ha : goodP a) (hb : goodP b)
    (h : mulM a b = some c) : goodP c := by
  rw [goodP_iff]
  refine ⟨mulM_canonical h, ?_⟩
  rw [mulM_sem h]
  exact mul_ne_zero (goodP_toPoly_ne_zero ha) (goodP_toPoly_ne_zero hb)

lemma length_mulM {a b c : List ℚ} (ha : goodP a) (hb : goodP b)
    (h : mulM a b = some c) : c.length = a.length + b.length - 1 := by
  have hc := goodP_mulM ha hb h
  have h1 := goodP_length hc
  rw [mulM_sem h, natDegree_mul (goodP_toPoly_ne_zero ha) (goodP_toPoly_ne_zero hb),
    goodP_natDegree ha, goodP_natDegree hb] at h1
  have hla : 1 ≤ a.length := List.length_pos.mpr ha.1
  have hlb : 1 ≤ b.length := List.length_pos.mpr hb.1
  omega

/-! ### Addition, subtraction, scalar multiplication -/

lemma toPoly_replicate_zero (k : ℕ) : toPoly (List.replicate k 0) = 0 := by
  induction k with
  | zero => rfl
  | succ k ih => simp [List.replicate_succ, ih]

lemma toPoly_padTo (a : List ℚ) (n : ℕ) : toPoly (padTo a n) = toPoly a := by
  rw [padTo, toPoly_append, toPoly_replicate_zero, zero_mul, add_zero]

lemma length_padTo (a : List ℚ) (n : ℕ) : (padTo a n).length = max a.length n := by
  simp [padTo]
  omega

lemma toPoly_zipWith_sub : ∀ {a b : List ℚ}, a.length = b.length →
    toPoly (List.zipWith (· - ·) a b) = toPoly a - toPoly b := by
  intro a
  induction a with
  | nil =>
    intro b hb
    simp [(List.length_eq_zero.mp hb.symm)]
  | cons c t ih =>
    intro b hb
    cases b with
    | nil => simp at hb
    | cons d u =>
      simp only [List.zipWith_cons_cons, toPoly_cons]
      rw [ih (by simpa using hb)]
      rw [C_sub]
      ring

lemma subM_sem {a b c : List ℚ} (h : subM a b = some c) :
    toPoly c = toPoly a - toPoly b := by
  unfold subM at h
  split_ifs at h with h1
  have hab : a.length ≤ b.length := by omega
  rw [shorten_toPoly h, toPoly_zipWith_sub (by rw [length_padTo]; omega), toPoly_padTo]

lemma subM_some {a b : List ℚ} (hab : a.length ≤ b.length) (hb : b ≠ []) :
    ∃ c, subM a b = some c ∧ canonical c ∧ toPoly c = toPoly a - toPoly b := by
  have hmax : max a.length b.length = b.length := max_eq_right hab
  have hz : List.zipWith (· - ·) (padTo a (max a.length b.length)) b ≠ [] := by
    have hlen : (List.zipWith (· - ·) (padTo a (max a.length b.length)) b).length = b.length := by
      rw [List.length_zipWith, length_padTo]
      omega
    intro hc
    rw [hc] at hlen
    exact hb (List.length_eq_zero.mp hlen.symm)
  refine ⟨shortenFn (List.zipWith (· - ·) (padTo a (max a.length b.length)) b), ?_, ?_, ?_⟩
  · unfold subM
    rw [if_neg (by omega), shorten_eq_some hz]
  · exact canonical_shortenFn hz
  · rw [toPoly_shortenFn, toPoly_zipWith_sub (by rw [length_padTo]; omega), toPoly_padTo]

lemma toPoly_map_mul (x : ℚ) (p : List ℚ) :
    toPoly (p.map (· * x)) = toPoly p * C x := by
  induction p with
  | nil => simp
  | cons c t ih =>
    simp only [List.map_cons, toPoly_cons, ih, C_mul]
    ring

lemma smulM_sem {x : ℚ} {p c : List ℚ} (h : smulM x p = some c) :
    toPoly c = toPoly p * C x := by
  unfold smulM at h
  rw [shorten_toPoly h, toPoly_map_mul]

lemma smulM_some {x : ℚ} {p : List ℚ} (hp : p ≠ []) :
    smulM x p = some (shortenFn (p.map (· * x))) ∧
      (shortenFn (p.map (· * x))).length ≤ p.length := by
  have hm : p.map (· * x) ≠ [] := by simpa using hp
  constructor
  · unfold smulM
    rw [shorten_eq_some hm]
  · calc (shortenFn (p.map (· * x))).length ≤ (p.map (· * x)).length :=
        length_shortenFn_le _
    _ = p.length := by simp

/-! ### Truncation -/

lemma truncMod_canonical {p : List ℚ} (hp : canonical p) (n : Int) :
    canonical (truncMod p n) := by
  unfold truncMod
  split_ifs with h1 h2 h3
  · exact ⟨by simp, Or.inl rfl⟩
  · exact hp
  · exact hp
  · refine canonical_shortenFn ?_
    have : 1 ≤ n.toNat := by omega
    have hlen : (p.take n.toNat).length = n.toNat := by
      rw [List.length_take]
      omega
    intro hc
    rw [hc] at hlen
    simp at hlen
    omega

lemma getD_take (p : List ℚ) (m k : ℕ) (h : k < m) :
    (p.take m).getD k 0 = p.getD k 0 := by
  rw [List.getD_eq_getElem?_getD, List.getD_eq_getElem?_getD, List.getElem?_take, if_pos h]

lemma truncMod_dvd_sub (p : List ℚ) (n : ℕ) :
    (X : ℚ[X]) ^ n ∣ toPoly p - toPoly (truncMod p (n : Int)) := by
  unfold truncMod
  split_ifs with h1 h2 h3
  · have : n = 0 := by omega
    simp [this]
  · omega
  · simp
  · rw [toPoly_shortenFn]
    rw [X_pow_dvd_iff]
    intro d hd
    rw [coeff_sub, toPoly_coeff, toPoly_coeff, getD_take]
    · ring
    · omega

lemma truncMod_getD {p : List ℚ} {n k : ℕ} (hk : k < n) :
    (truncMod p (n : Int)).getD k 0 = p.getD k 0 := by
  have h := truncMod_dvd_sub p n
  rw [X_pow_dvd_iff] at h
  have h2 := h k hk
  rw [coeff_sub, toPoly_coeff, toPoly_coeff] at h2
  linarith

/-! ### The Newton iteration of `reciprocal` -/

lemma C_two_eq : (C (2 : ℚ) : ℚ[X]) = 2 := map_ofNat C 2

lemma goodP_of_canonical_getD {p : List ℚ} (hp : canonical p) (h0 : p.getD 0 0 ≠ 0) :
    goodP p := by
  refine goodP_iff.mpr ⟨hp, fun hc => h0 ?_⟩
  have := toPoly_coeff p 0
  rw [hc, coeff_zero] at this
  exact this.symm

lemma reciprocalLoop_correct {p : List ℚ} (hp : canonical p) (h0 : p.getD 0 0 ≠ 0) (n : ℕ) :
    ∀ fuel sz R, 1 ≤ sz → n ≤ 2 ^ fuel * sz → goodP R →
      (X : ℚ[X]) ^ sz ∣ toPoly R * toPoly p - 1 →
      ∃ Rf, reciprocalLoop p (n : Int) fuel sz R = some Rf ∧ goodP Rf ∧
        (X : ℚ[X]) ^ n ∣ toPoly Rf * toPoly p - 1 := by
  have hpne : p ≠ [] := fun hc => h0 (by simp [hc])
  have hgp : goodP p := goodP_of_canonical_getD hp h0
  intro fuel
  induction fuel with
  | zero =>
    intro sz R hsz hle hR hdvd
    have hns : n ≤ sz := by simpa using hle
    refine ⟨R, ?_, hR, dvd_trans (pow_dvd_pow X hns) hdvd⟩
    unfold reciprocalLoop
    rw [if_neg (by exact_mod_cast not_lt.mpr hns)]
  | succ fuel ih =>
    intro sz R hsz hle hR hdvd
    by_cases hlt : sz < n
    · -- one doubling step
      set pt := truncMod p ((2 * sz : ℕ) : Int) with hpt
      have hptc : canonical pt := truncMod_canonical hp _
      have hpt0 : pt.getD 0 0 = p.getD 0 0 := truncMod_getD (by omega)
      have hptg : goodP pt := goodP_of_canonical_getD hptc (by rw [hpt0]; exact h0)
      have hptne : 1 ≤ pt.length := List.length_pos.mpr hptc.1
      -- A = R * 2
      have hA := smulM_some (x := 2) hR.1
      set A := shortenFn (R.map (· * 2)) with hAdef
      have hAsem : toPoly A = toPoly R * C 2 := smulM_sem hA.1
      -- RR = R * R
      have hRRs := mulM_some_of_goodP hR hR
      set RR := shortenFn (multiply_brute_force R R (R.length + R.length - 1)) with hRRdef
      have hRRg : goodP RR := goodP_mulM hR hR hRRs
      have hRRsem : toPoly RR = toPoly R * toPoly R := mulM_sem hRRs
      have hRRlen : RR.length = R.length + R.length - 1 := length_mulM hR hR hRRs
      -- B = R * R * (p % (2 sz))
      have hBs := mulM_some_of_goodP hRRg hptg
      set B := shortenFn (multiply_brute_force RR pt (RR.length + pt.length - 1)) with hBdef
      have hBg : goodP B := goodP_mulM hRRg hptg hBs
      have hBsem : toPoly B = toPoly R * toPoly R * toPoly pt := by
        rw [mulM_sem hBs, hRRsem]
      have hBlen : B.length = RR.length + pt.length - 1 := length_mulM hRRg hptg hBs
      have hRlen : 1 ≤ R.length := List.length_pos.mpr hR.1
      have hAlen : A.length ≤ R.length := hA.2
      -- R2 = A - B
      obtain ⟨R2, hR2s, hR2c, hR2sem⟩ :=
        subM_some (a := A) (b := B) (by omega) hBg.1
      rw [hAsem, hBsem] at hR2sem
      -- the new congruence, one power doubled
      have hcong : (X : ℚ[X]) ^ (2 * sz) ∣ toPoly R2 * toPoly p - 1 := by
        have hkey : toPoly R2 * toPoly p - 1 =
            -((1 - toPoly R * toPoly p) ^ 2) +
              toPoly R ^ 2 * toPoly p * (toPoly p - toPoly pt) := by
          rw [hR2sem, C_two_eq]
          ring
        rw [hkey]
        refine dvd_add (dvd_neg.mpr ?_) (Dvd.dvd.mul_left (truncMod_dvd_sub p (2 * sz)) _)
        have h1 : (X : ℚ[X]) ^ sz ∣ 1 - toPoly R * toPoly p := by
          have := dvd_neg.mpr hdvd
          simpa using this
        calc (X : ℚ[X]) ^ (2 * sz) = X ^ sz * X ^ sz := by rw [two_mul, pow_add]
        _ ∣ (1 - toPoly R * toPoly p) * (1 - toPoly R * toPoly p) := mul_dvd_mul h1 h1
        _ = (1 - toPoly R * toPoly p) ^ 2 := by ring
      have hR2g : goodP R2 := by
        refine goodP_iff.mpr ⟨hR2c, fun hz => ?_⟩
        rw [hz, zero_mul, zero_sub] at hcong
        have hXdvd : (X : ℚ[X]) ∣ -1 :=
          dvd_trans (dvd_pow_self X (show 2 * sz ≠ 0 by omega)) hcong
        rw [X_dvd_iff] at hXdvd
        simp at hXdvd
      have hle2 : n ≤ 2 ^ fuel * (2 * sz) := by
        calc n ≤ 2 ^ (fuel + 1) * sz := hle
        _ = 2 ^ fuel * (2 * sz) := by ring
      obtain ⟨Rf, hRf, hRfg, hRfd⟩ := ih (2 * sz) R2 (by omega) hle2 hR2g hcong
      refine ⟨Rf, ?_, hRfg, hRfd⟩
      unfold reciprocalLoop
      rw [if_pos (by exact_mod_cast hlt)]
      rw [hA.1, Option.some_bind, hRRs, Option.some_bind, ← hpt, hBs, Option.some_bind,
        hR2s, Option.some_bind]
      exact hRf
    · refine ⟨R, ?_, hR, dvd_trans (pow_dvd_pow X (not_lt.mp hlt)) hdvd⟩
      unfold reciprocalLoop
      rw [if_neg (by exact_mod_cast hlt)]

/-- C2: for every polynomial value `p` with nonzero constant coefficient
and every precision `n ≥ 1`, `reciprocal(p, n)` succeeds and its result
`R` satisfies `R · p ≡ 1 (mod x^n)`. -/
theorem reciprocal_correct (p : List ℚ) (n : ℕ) (hn : 1 ≤ n) (hp : canonical p)
    (h0 : p.getD 0 0 ≠ 0) :
    ∃ R, reciprocal p (n : Int) = some R ∧
      (X : ℚ[X]) ^ n ∣ toPoly R * toPoly p - 1 := by
  obtain ⟨c, t, rfl⟩ := List.exists_cons_of_ne_nil hp.1
  have hc : c ≠ 0 := by simpa using h0
  have hgood : goodP [1 / c] := by
    refine ⟨by simp, ?_⟩
    simpa using one_div_ne_zero hc
  have hinv : (X : ℚ[X]) ^ 1 ∣ toPoly [1 / c] * toPoly (c :: t) - 1 := by
    rw [X_pow_dvd_iff]
    intro d hd
    have hd0 : d = 0 := by omega
    subst hd0
    rw [coeff_sub, mul_coeff_zero, toPoly_coeff, toPoly_coeff]
    simp [inv_mul_cancel₀ hc]
  have hfuel : n ≤ 2 ^ (n + 1) * 1 := by
    have h1 : n < 2 ^ n := Nat.lt_two_pow n
    have h2 : (2 : ℕ) ^ n ≤ 2 ^ (n + 1) := Nat.pow_le_pow_right (by omega) (by omega)
    omega
  obtain ⟨Rf, hRf, hRfg, hRfd⟩ :=
    reciprocalLoop_correct hp h0 n (n + 1) 1 [1 / c] le_rfl hfuel hgood hinv
  refine ⟨truncMod Rf (n : Int), ?_, ?_⟩
  · rw [reciprocal, if_neg hc]
    rw [show ((n : ℕ) : Int).toNat + 1 = n + 1 by omega]
    rw [hRf]
    rfl
  · have h1 : (X : ℚ[X]) ^ n ∣ toPoly Rf - toPoly (truncMod Rf (n : Int)) :=
      truncMod_dvd_sub Rf n
    have hkey : toPoly (truncMod Rf (n : Int)) * toPoly (c :: t) - 1 =
        (toPoly Rf * toPoly (c :: t) - 1) -
          (toPoly Rf - toPoly (truncMod Rf (n : Int))) * toPoly (c :: t) := by
      ring
    rw [hkey]
    exact dvd_sub hRfd (h1.mul_right _)

/-! ### Heap indices of the remainder tree -/

lemma inSubtree_refl (v : ℕ) : inSubtree v v := ⟨0, by simp⟩

lemma inSubtree_left (v : ℕ) : inSubtree v (2 * v) :=
  ⟨1, by rw [pow_one]; omega⟩

lemma inSubtree_right (v : ℕ) : inSubtree v (2 * v + 1) :=
  ⟨1, by rw [pow_one]; omega⟩

lemma inSubtree_trans {a b c : ℕ} (h1 : inSubtree a b) (h2 : inSubtree b c) :
    inSubtree a c := by
  obtain ⟨k1, hk1⟩ := h1
  obtain ⟨k2, hk2⟩ := h2
  exact ⟨k2 + k1, by rw [pow_add, ← Nat.div_div_eq_div_mul, hk2, hk1]⟩

lemma inSubtree_le {v w : ℕ} (h : inSubtree v w) : v ≤ w := by
  obtain ⟨k, hk⟩ := h
  rw [← hk]
  exact Nat.div_le_self _ _

lemma div_pow_le_half (m k : ℕ) (hk : 1 ≤ k) : m / 2 ^ k ≤ m / 2 := by
  refine Nat.div_le_div_left ?_ (by omega)
  calc (2 : ℕ) = 2 ^ 1 := (pow_one 2).symm
  _ ≤ 2 ^ k := Nat.pow_le_pow_right (by omega) hk

lemma inSubtree_disjoint {v w : ℕ} (hv : 1 ≤ v) (h1 : inSubtree (2 * v) w)
    (h2 : inSubtree (2 * v + 1) w) : False := by
  obtain ⟨a, ha⟩ := h1
  obtain ⟨b, hb⟩ := h2
  rcases lt_trichotomy a b with hab | hab | hab
  · have hb2 : w / 2 ^ b = (2 * v) / 2 ^ (b - a) := by
      rw [← ha, Nat.div_div_eq_div_mul, ← pow_add]
      congr 2
      omega
    have hle : (2 * v) / 2 ^ (b - a) ≤ v := by
      calc (2 * v) / 2 ^ (b - a) ≤ (2 * v) / 2 := div_pow_le_half _ _ (by omega)
      _ = v := by omega
    omega
  · subst hab
    omega
  · have ha2 : w / 2 ^ a = (2 * v + 1) / 2 ^ (a - b) := by
      rw [← hb, Nat.div_div_eq_div_mul, ← pow_add]
      congr 2
      omega
    have hle : (2 * v + 1) / 2 ^ (a - b) ≤ v := by
      calc (2 * v + 1) / 2 ^ (a - b) ≤ (2 * v + 1) / 2 := div_pow_le_half _ _ (by omega)
      _ = v := by omega
    omega

/-! ### Stability of `VT` under writes outside the subtree -/

lemma VT_congr {x : List ℚ} {t t' : ℕ → List ℚ} : ∀ {v l r : ℕ}, VT x t v l r → 1 ≤ v →
    (∀ w, inSubtree v w → w ≠ v → t' w = t w) → VT x t' v l r := by
  intro v l r h
  induction h with
  | leaf v l =>
    intro _ _
    exact VT.leaf t' v l
  | node v l r hlr hv1 hv2 hL hR ihL ihR =>
    intro hv hagree
    have hL2v : t' (2 * v) = t (2 * v) :=
      hagree (2 * v) (inSubtree_left v) (by omega)
    have hR2v : t' (2 * v + 1) = t (2 * v + 1) :=
      hagree (2 * v + 1) (inSubtree_right v) (by omega)
    refine VT.node t' v l r hlr ?_ ?_ ?_ ?_
    · intro i h1 h2
      rw [hL2v]
      exact hv1 i h1 h2
    · intro i h1 h2
      rw [hR2v]
      exact hv2 i h1 h2
    · refine ihL (by omega) fun w hw hne => ?_
      refine hagree w (inSubtree_trans (inSubtree_left v) hw) ?_
      have := inSubtree_le hw
      omega
    · refine ihR (by omega) fun w hw hne => ?_
      refine hagree w (inSubtree_trans (inSubtree_right v) hw) ?_
      have := inSubtree_le hw
      omega

/-! ### Correctness of the build phase -/

lemma updateT_self (t : ℕ → List ℚ) (v : ℕ) (p : List ℚ) : updateT t v p v = p := by
  simp [updateT]

lemma updateT_other (t : ℕ → List ℚ) (v w : ℕ) (p : List ℚ) (h : w ≠ v) :
    updateT t v p w = t w := by
  simp [updateT, h]

lemma evaluate_linear (a c : ℚ) : evaluate [-a, 1] c = c - a := by
  simp [evaluate]
  ring

lemma linear_factors_product_ok (x : List ℚ) (nn : ℕ) :
    ∀ fuel v l r t0 t1 pol, 1 ≤ v → l < r → r ≤ x.length →
      linear_factors_product x nn fuel v l r t0 = some (t1, pol) →
      VT x t1 v l r ∧ t1 v = pol ∧
        (∀ w, ¬ inSubtree v w → t1 w = t0 w) ∧
        (∀ i, l ≤ i → i < r → evaluate pol (x.getD i 0) = 0) := by
  intro fuel
  induction fuel with
  | zero =>
    intro v l r t0 t1 pol hv hlr hrx h
    simp [linear_factors_product] at h
  | succ fuel ih =>
    intro v l r t0 t1 pol hv hlr hrx h
    unfold linear_factors_product at h
    by_cases hleaf : l + 1 = r
    · rw [if_pos hleaf] at h
      split_ifs at h with hcond
      · simp only [Option.some.injEq, Prod.mk.injEq] at h
        obtain ⟨ht, hp⟩ := h
        subst ht
        subst hp
        refine ⟨?_, updateT_self _ _ _, ?_, ?_⟩
        · rw [← hleaf]
          exact VT.leaf _ v l
        · intro w hw
          exact updateT_other _ _ _ _ (fun hc => hw (hc ▸ inSubtree_refl v))
        · intro i h1 h2
          have hi : i = l := by omega
          subst hi
          rw [evaluate_linear]
          exact sub_self _
    · rw [if_neg hleaf] at h
      have hlm : l < (l + r) / 2 := by omega
      have hmr : (l + r) / 2 < r := by omega
      cases hL : linear_factors_product x nn fuel (2 * v) l ((l + r) / 2) t0 with
      | none => rw [hL] at h; simp at h
      | some tpL =>
        obtain ⟨tL, p1⟩ := tpL
        rw [hL] at h
        simp only [Option.some_bind] at h
        cases hR : linear_factors_product x nn fuel (2 * v + 1) ((l + r) / 2) r tL with
        | none => rw [hR] at h; simp at h
        | some tpR =>
          obtain ⟨tR, p2⟩ := tpR
          rw [hR] at h
          simp only [Option.some_bind] at h
          cases hM : mulM p1 p2 with
          | none => rw [hM] at h; simp at h
          | some pol2 =>
            rw [hM] at h
            simp only [Option.some_bind] at h
            split_ifs at h with hv4
            · simp only [Option.some.injEq, Prod.mk.injEq] at h
              obtain ⟨ht, hp⟩ := h
              subst ht
              subst hp
              obtain ⟨vtL, stL, prL, vanL⟩ :=
                ih (2 * v) l ((l + r) / 2) t0 tL p1 (by omega) hlm (by omega) hL
              obtain ⟨vtR, stR, prR, vanR⟩ :=
                ih (2 * v + 1) ((l + r) / 2) r tL tR p2 (by omega) hmr hrx hR
              have hnotR2v : ¬ inSubtree (2 * v + 1) (2 * v) := fun hc => by
                have := inSubtree_le hc
                omega
              have htR2v : tR (2 * v) = p1 := by
                rw [prR (2 * v) hnotR2v, stL]
              have h2vnev : (2 * v) ≠ v := by omega
              have h2v1nev : (2 * v + 1) ≠ v := by omega
              have hfin2v : updateT tR v pol2 (2 * v) = p1 := by
                rw [updateT_other _ _ _ _ h2vnev, htR2v]
              have hfin2v1 : updateT tR v pol2 (2 * v + 1) = p2 := by
                rw [updateT_other _ _ _ _ h2v1nev, stR]
              have hvanish : ∀ i, l ≤ i → i < r →
                  evaluate pol2 (x.getD i 0) = 0 := by
                intro i h1 h2
                have heval : evaluate pol2 (x.getD i 0) =
                    evaluate p1 (x.getD i 0) * evaluate p2 (x.getD i 0) := by
                  rw [evaluate_toPoly, evaluate_toPoly, evaluate_toPoly, mulM_sem hM,
                    eval_mul]
                rw [heval]
                by_cases hi : i < (l + r) / 2
                · rw [vanL i h1 hi, zero_mul]
                · rw [vanR i (by omega) h2, mul_zero]
              refine ⟨?_, updateT_self _ _ _, ?_, hvanish⟩
              · -- the stored tree satisfies `VT`
                have vtL1 : VT x tR (2 * v) l ((l + r) / 2) := by
                  refine VT_congr vtL (by omega) fun w hw hne => ?_
                  exact prR w fun hc => inSubtree_disjoint hv hw hc
                have vtL' : VT x (updateT tR v pol2) (2 * v) l ((l + r) / 2) := by
                  refine VT_congr vtL1 (by omega) fun w hw hne => ?_
                  refine updateT_other _ _ _ _ fun hc => ?_
                  have := inSubtree_le hw
                  omega
                have vtR' : VT x (updateT tR v pol2) (2 * v + 1) ((l + r) / 2) r := by
                  refine VT_congr vtR (by omega) fun w hw hne => ?_
                  refine updateT_other _ _ _ _ fun hc => ?_
                  have := inSubtree_le hw
                  omega
                refine VT.node _ v l r (by omega) ?_ ?_ vtL' vtR'
                · intro i h1 h2
                  rw [hfin2v]
                  exact vanL i h1 h2
                · intro i h1 h2
                  rw [hfin2v1]
                  exact vanR i h1 h2
              · -- writes stay inside the subtree of `v`
                intro w hw
                have hwv : w ≠ v := fun hc => hw (hc ▸ inSubtree_refl v)
                rw [updateT_other _ _ _ _ hwv]
                rw [prR w fun hc => hw (inSubtree_trans (inSubtree_right v) hc)]
                exact prL w fun hc => hw (inSubtree_trans (inSubtree_left v) hc)

/-! ### Correctness of the evaluation phase -/

lemma divide_modulo_identity {f g q r : List ℚ} (h : divide_modulo f g = some (q, r)) :
    toPoly f = toPoly g * toPoly q + toPoly r := by
  unfold divide_modulo at h
  cases hq : divide f g with
  | none => rw [hq] at h; simp at h
  | some q' =>
    rw [hq] at h
    simp only [Option.some_bind] at h
    cases hgq : mulM g q' with
    | none => rw [hgq] at h; simp at h
    | some gq =>
      rw [hgq] at h
      simp only [Option.some_bind] at h
      cases hr : subM f gq with
      | none => rw [hr] at h; simp at h
      | some r' =>
        rw [hr] at h
        simp only [Option.map_some', Option.some.injEq, Prod.mk.injEq] at h
        obtain ⟨hq2, hr2⟩ := h
        subst hq2
        subst hr2
        have h1 := subM_sem hr
        have h2 := mulM_sem hgq
        rw [h2] at h1
        rw [h1]
        ring

lemma divide_modulo_eval {f g q r : List ℚ} (h : divide_modulo f g = some (q, r))
    (c : ℚ) (hg : evaluate g c = 0) : evaluate r c = evaluate f c := by
  have hid := divide_modulo_identity h
  rw [evaluate_toPoly] at hg
  rw [evaluate_toPoly, evaluate_toPoly, hid]
  simp [hg]

lemma multi_point_evaluation_rec_ok (x : List ℚ) (nn : ℕ) :
    ∀ fuel (t : ℕ → List ℚ) f v l r ys, r ≤ x.length → VT x t v l r →
      multi_point_evaluation_rec x nn t fuel f v l r = some ys →
      ys = (List.range' l (r - l)).map fun i => evaluate f (x.getD i 0) := by
  intro fuel
  induction fuel with
  | zero =>
    intro t f v l r ys hrx hvt h
    simp [multi_point_evaluation_rec] at h
  | succ fuel ih =>
    intro t f v l r ys hrx hvt h
    unfold multi_point_evaluation_rec at h
    cases hvt with
    | leaf =>
      rw [if_pos rfl, if_pos (by omega)] at h
      simp only [Option.some.injEq] at h
      subst h
      rw [show l + 1 - l = 1 by omega, List.range'_one]
      rfl
    | node v2 l2 r2 hlr hv1 hv2 hL hR =>
      rw [if_neg (by omega)] at h
      split_ifs at h with hb
      · cases h1 : divide_modulo f (t (2 * v)) with
        | none => rw [h1] at h; simp at h
        | some qr1 =>
          obtain ⟨q1, r1⟩ := qr1
          rw [h1] at h
          simp only [Option.some_bind] at h
          cases h2 : divide_modulo f (t (2 * v + 1)) with
          | none => rw [h2] at h; simp at h
          | some qr2 =>
            obtain ⟨q2, r2⟩ := qr2
            rw [h2] at h
            simp only [Option.some_bind] at h
            cases h3 : multi_point_evaluation_rec x nn t fuel r1 (2 * v) l ((l + r) / 2) with
            | none => rw [h3] at h; simp at h
            | some res1 =>
              rw [h3] at h
              simp only [Option.some_bind] at h
              cases h4 : multi_point_evaluation_rec x nn t fuel r2 (2 * v + 1) ((l + r) / 2) r with
              | none => rw [h4] at h; simp at h
              | some res2 =>
                rw [h4] at h
                simp only [Option.some_bind, Option.some.injEq] at h
                subst h
                have e1 := ih t r1 (2 * v) l ((l + r) / 2) res1 (by omega) hL h3
                have e2 := ih t r2 (2 * v + 1) ((l + r) / 2) r res2 hrx hR h4
                have happ := List.range'_append_1 l ((l + r) / 2 - l) (r - (l + r) / 2)
                rw [show l + ((l + r) / 2 - l) = (l + r) / 2 by omega,
                  show (r - (l + r) / 2) + ((l + r) / 2 - l) = r - l by omega] at happ
                rw [e1, e2, ← happ, List.map_append]
                congr 1
                · refine List.map_congr_left fun i hi => ?_
                  rw [List.mem_range'_1] at hi
                  exact divide_modulo_eval h1 _ (hv1 i hi.1 (by omega))
                · refine List.map_congr_left fun i hi => ?_
                  rw [List.mem_range'_1] at hi
                  exact divide_modulo_eval h2 _ (hv2 i hi.1 (by omega))

lemma map_evaluate_range (f x : List ℚ) :
    (List.range x.length).map (fun i => evaluate f (x.getD i 0)) = x.map (evaluate f) := by
  refine List.ext_getElem (by simp) fun i h1 h2 => ?_
  simp only [List.getElem_map, List.getElem_range]
  congr 1
  rw [List.getD_eq_getElem?_getD, List.getElem?_eq_getElem (by simpa using h2)]
  rfl

/-- C3 (amended): whenever the driver `multi_point_evaluation(f, X)`
completes (returns a value), the returned sequence is exactly
`[evaluate(f, x) for x in X]`, element-wise and in the order of `X`.
For the empty point set the build recursion does not terminate, so the
universally quantified claim fails there (see the counterexample). -/
theorem multi_point_evaluation_correct (f x ys : List ℚ)
    (h : multi_point_evaluation f x = some ys) : ys = x.map (evaluate f) := by
  unfold multi_point_evaluation at h
  cases hb : linear_factors_product x x.length (x.length + 1) 1 0 x.length (fun _ => []) with
  | none => rw [hb] at h; simp at h
  | some tp =>
    obtain ⟨t, pol⟩ := tp
    rw [hb] at h
    simp only [Option.some_bind] at h
    have hxne : x ≠ [] := by
      intro hx
      subst hx
      simp [linear_factors_product] at hb
    have hlen : 0 < x.length := List.length_pos.mpr hxne
    obtain ⟨hvt, -, -, -⟩ :=
      linear_factors_product_ok x x.length (x.length + 1) 1 0 x.length _ t pol
        (by omega) hlen le_rfl hb
    have hys := multi_point_evaluation_rec_ok x x.length (x.length + 1) t f 1 0 x.length ys
      le_rfl hvt h
    rw [hys, Nat.sub_zero, ← List.range_eq_range', map_evaluate_range]

/-! ### Canonical form after each mutating operation -/

lemma addM_canonical {a b c : List ℚ} (h : addM a b = some c) : canonical c := by
  unfold addM at h
  split_ifs at h
  exact shorten_canonical h

lemma subM_canonical {a b c : List ℚ} (h : subM a b = some c) : canonical c := by
  unfold subM at h
  split_ifs at h
  exact shorten_canonical h

lemma smulM_canonical {x : ℚ} {p c : List ℚ} (h : smulM x p = some c) : canonical c := by
  unfold smulM at h
  exact shorten_canonical h

lemma divide_canonical {f g q : List ℚ} (h : divide f g = some q) : canonical q := by
  unfold divide at h
  rw [Option.bind_eq_some] at h
  obtain ⟨rf, h1, h⟩ := h
  rw [Option.bind_eq_some] at h
  obtain ⟨rg, h2, h⟩ := h
  rw [Option.bind_eq_some] at h
  obtain ⟨R, h3, h⟩ := h
  rw [Option.bind_eq_some] at h
  obtain ⟨w, h4, h⟩ := h
  exact shorten_canonical h

lemma divide_modulo_r_canonical {f g q r : List ℚ} (h : divide_modulo f g = some (q, r)) :
    canonical r := by
  unfold divide_modulo at h
  rw [Option.bind_eq_some] at h
  obtain ⟨q1, h1, h⟩ := h
  rw [Option.bind_eq_some] at h
  obtain ⟨gq, h2, h⟩ := h
  rw [Option.map_eq_some'] at h
  obtain ⟨r1, h3, h4⟩ := h
  obtain ⟨-, hr⟩ := Prod.mk.injEq .. ▸ h4
  exact hr ▸ subM_canonical h3

/-! ### `derivation` -/

lemma getD_mapIdx (t : List ℚ) (f : ℕ → ℚ → ℚ) (i : ℕ) (hi : i < t.length) :
    (t.mapIdx f).getD i 0 = f i (t.getD i 0) := by
  rw [List.getD_eq_getElem?_getD, List.getD_eq_getElem?_getD, List.getElem?_mapIdx,
    List.getElem?_eq_getElem hi]
  rfl

lemma derivation_eq {a : ℚ} {t : List ℚ} :
    derivation (a :: t) = some (t.mapIdx fun i c => c * ((i + 1 : ℕ) : ℚ)) := rfl

lemma derivation_canonical {p d : List ℚ} (hp : canonical p) (hlen : 2 ≤ p.length)
    (h : derivation p = some d) : canonical d := by
  obtain ⟨a, t, rfl⟩ := List.exists_cons_of_ne_nil hp.1
  have htne : t ≠ [] := by
    intro hc
    subst hc
    simp at hlen
  rw [derivation_eq, Option.some.injEq] at h
  subst h
  have hdne : t.mapIdx (fun i c => c * ((i + 1 : ℕ) : ℚ)) ≠ [] := by
    rw [Ne, List.mapIdx_eq_nil_iff]
    exact htne
  refine ⟨hdne, ?_⟩
  by_cases h1 : t.length = 1
  · left
    simp [h1]
  · right
    have htl : 2 ≤ t.length := by
      have := List.length_pos.mpr htne
      omega
    rw [getLast?_getD hdne, List.length_mapIdx,
      getD_mapIdx _ _ _ (by have := List.length_pos.mpr htne; omega)]
    have hlast : t.getD (t.length - 1) 0 ≠ 0 := by
      have hp2 := hp.2
      rcases hp2 with hp2 | hp2
      · rw [List.length_cons] at hp2
        omega
      · obtain ⟨b, t2, rfl⟩ := List.exists_cons_of_ne_nil htne
        rw [List.getLast?_cons_cons, getLast?_getD (by simp)] at hp2
        intro hc
        exact hp2 (by rw [hc])
    intro hc
    rw [Option.some.injEq] at hc
    rcases mul_eq_zero.mp hc with hc | hc
    · exact hlast hc
    · have : ((t.length - 1 + 1 : ℕ) : ℚ) ≠ 0 := by
        rw [Nat.cast_ne_zero]
        omega
      exact this hc

/-! ### Concrete evaluation helpers -/

lemma mulM_eval {a b : List ℚ} {k : ℕ} (hd : deg a + deg b = k + 1)
    (hk : (k : Int) ≤ 200) :
    mulM a b =
      if a.length = 0 ∨ b.length = 0 ∨ a.length + b.length ≤ k + 1 then
        shorten (multiply_brute_force a b k)
      else none := by
  unfold mulM
  have h1 : (deg a : Int) + (deg b : Int) - 1 = (k : Int) := by omega
  rw [h1, if_pos hk, if_pos (Int.natCast_nonneg k), Int.toNat_natCast]

lemma reciprocalLoop_exit {p : List ℚ} {n : Int} {fuel sz : ℕ} {R : List ℚ}
    (h : ¬ (sz : Int) < n) : reciprocalLoop p n fuel sz R = some R := by
  cases fuel with
  | zero => rw [reciprocalLoop, if_neg h]
  | succ fuel => rw [reciprocalLoop, if_neg h]

lemma reciprocalLoop_step (p : List ℚ) (n : Int) (fuel sz : ℕ) (R : List ℚ)
    (h : (sz : Int) < n) :
    reciprocalLoop p n (fuel + 1) sz R =
      ((smulM 2 R).bind fun A =>
      (mulM R R).bind fun RR =>
      (mulM RR (truncMod p ((2 * sz : ℕ) : Int))).bind fun B =>
      (subM A B).bind fun R2 =>
      reciprocalLoop p n fuel (2 * sz) R2) := by
  rw [reciprocalLoop, if_pos h]

/-! ### Claim theorems -/

/-- C5 (amended): each iteration of the Newton loop with doubled working
size `2·sz` replaces the stored `R` by `2·R − R·R·(p mod x^(2·sz))` with
NO truncation of the stored `R`; only the final result of `reciprocal` is
truncated (mod `x^n`).  Consequently the stored `R` can exceed `2·sz`
coefficients (see the counterexample). -/
theorem reciprocal_step_untruncated (p R : List ℚ) (n : Int) (fuel sz : ℕ)
    (hlt : (sz : Int) < n) :
    (reciprocalLoop p n (fuel + 1) sz R =
      (smulM 2 R).bind fun A =>
      (mulM R R).bind fun RR =>
      (mulM RR (truncMod p ((2 * sz : ℕ) : Int))).bind fun B =>
      (subM A B).bind fun R2 =>
      reciprocalLoop p n fuel (2 * sz) R2) ∧
    (∀ A RR B R2, smulM 2 R = some A → mulM R R = some RR →
      mulM RR (truncMod p ((2 * sz : ℕ) : Int)) = some B → subM A B = some R2 →
      toPoly R2 =
        toPoly R * C 2 - toPoly R * toPoly R * toPoly (truncMod p ((2 * sz : ℕ) : Int))) := by
  constructor
  · rw [reciprocalLoop, if_pos hlt]
  · intro A RR B R2 h1 h2 h3 h4
    rw [subM_sem h4, smulM_sem h1, mulM_sem h3, mulM_sem h2]

/-- Witness for C5's amended theorem at `p = 1+x+x²+x³`, `n = 4`,
`sz = 2`, `R = 1-x`. -/
theorem reciprocal_step_untruncated_witness :
    (reciprocalLoop [(1:ℚ),1,1,1] 4 (0 + 1) 2 [1,-1] =
      (smulM 2 [(1:ℚ),-1]).bind fun A =>
      (mulM [(1:ℚ),-1] [1,-1]).bind fun RR =>
      (mulM RR (truncMod [(1:ℚ),1,1,1] ((2 * 2 : ℕ) : Int))).bind fun B =>
      (subM A B).bind fun R2 =>
      reciprocalLoop [(1:ℚ),1,1,1] 4 0 (2 * 2) R2) ∧
    (∀ A RR B R2, smulM 2 [(1:ℚ),-1] = some A → mulM [(1:ℚ),-1] [1,-1] = some RR →
      mulM RR (truncMod [(1:ℚ),1,1,1] ((2 * 2 : ℕ) : Int)) = some B → subM A B = some R2 →
      toPoly R2 =
        toPoly [(1:ℚ),-1] * C 2 -
          toPoly [(1:ℚ),-1] * toPoly [(1:ℚ),-1] *
            toPoly (truncMod [(1:ℚ),1,1,1] ((2 * 2 : ℕ) : Int))) :=
  reciprocal_step_untruncated [1,1,1,1] [1,-1] 4 0 2 (by norm_num)

/-- C7 (amended): every mutating operation except the derivative returns
a canonical sequence whenever it returns at all: nonempty, and with no
trailing zero coefficient unless the length is exactly 1.  Truncation of
a canonical value is canonical.  The derivative of a canonical value of
length at least 2 is canonical, but the derivative of a length-1 value
is the EMPTY sequence — of length 0, not the canonical `[0]` (see the
counterexample). -/
theorem canonical_after_mutators :
    (∀ a b c : List ℚ, addM a b = some c → canonical c) ∧
    (∀ a b c : List ℚ, subM a b = some c → canonical c) ∧
    (∀ (x : ℚ) (p c : List ℚ), smulM x p = some c → canonical c) ∧
    (∀ (x : ℚ) (p c : List ℚ), sdivM x p = some c → canonical c) ∧
    (∀ a b c : List ℚ, mulM a b = some c → canonical c) ∧
    (∀ f g q : List ℚ, divide f g = some q → canonical q) ∧
    (∀ f g q r : List ℚ, divide_modulo f g = some (q, r) → canonical r) ∧
    (∀ (p : List ℚ) (n : Int), canonical p → canonical (truncMod p n)) ∧
    (∀ p d : List ℚ, canonical p → 2 ≤ p.length → derivation p = some d → canonical d) := by
  refine ⟨?_, ?_, ?_, ?_, ?_, ?_, ?_, ?_, ?_⟩
  · exact fun a b c h => addM_canonical h
  · exact fun a b c h => subM_canonical h
  · exact fun x p c h => smulM_canonical h
  · exact fun x p c h => smulM_canonical h
  · exact fun a b c h => mulM_canonical h
  · exact fun f g q h => divide_canonical h
  · exact fun f g q r h => divide_modulo_r_canonical h
  · exact fun p n h => truncMod_canonical h n
  · exact fun p d h1 h2 h3 => derivation_canonical h1 h2 h3

/-- C7 counterexample: the derivative of the (canonical) length-1 value
`[5]` is the empty coefficient sequence, of length 0 — violating "length
at least 1 after every mutating operation". -/
theorem derivation_length_counterexample :
    derivation [(5:ℚ)] = some [] ∧ ¬ (1 ≤ ([] : List ℚ).length) :=
  ⟨rfl, by simp⟩

/-- C9 (amended): the derivative moves coefficient `i` (`i ≥ 1`) to
position `i-1` scaled by `i` and drops the highest slot, so the result is
one coefficient shorter; the derivative of `[5,3,3]` is `[3,6]`; but for
a length-1 (constant) input the result is the EMPTY sequence (treated as
zero), not the canonical length-1 zero sequence `[0]` (see the
counterexample). -/
theorem derivation_spec :
    (∀ p : List ℚ, p ≠ [] →
      ∃ d, derivation p = some d ∧ d.length = p.length - 1 ∧
        ∀ i, i < d.length → d.getD i 0 = p.getD (i + 1) 0 * ((i + 1 : ℕ) : ℚ)) ∧
    derivation [(5:ℚ), 3, 3] = some [3, 6] ∧
    (∀ c : ℚ, derivation [c] = some []) := by
  refine ⟨?_, ?_, fun c => rfl⟩
  · intro p hp
    obtain ⟨a, t, rfl⟩ := List.exists_cons_of_ne_nil hp
    refine ⟨_, derivation_eq, by simp, ?_⟩
    intro i hi
    rw [List.length_mapIdx] at hi
    rw [getD_mapIdx _ _ _ hi, List.getD_cons_succ]
  · rw [derivation_eq]
    norm_num

/-- C9 counterexample: the derivative of the constant `[5]` is the empty
sequence, not the canonical length-1 zero sequence `[0]`. -/
theorem derivation_constant_counterexample :
    derivation [(5:ℚ)] = some [] ∧ derivation [(5:ℚ)] ≠ some [0] := by
  refine ⟨rfl, ?_⟩
  rw [show derivation [(5:ℚ)] = some [] from rfl]
  simp

/-- Witness for C9's amended theorem at `p = [5,3,3]`. -/
theorem derivation_spec_witness :
    ∃ d, derivation [(5:ℚ), 3, 3] = some d ∧ d.length = [(5:ℚ), 3, 3].length - 1 ∧
      ∀ i, i < d.length → d.getD i 0 = [(5:ℚ), 3, 3].getD (i + 1) 0 * ((i + 1 : ℕ) : ℚ) :=
  derivation_spec.1 [5, 3, 3] (by simp)

/-- C8 (amended): for operands that are not the zero polynomial (nonempty
with a nonzero top coefficient, so that `deg` equals the stored length)
and whose result bound `len(a)+len(b)-1` is at most 200, multiplication
computes the direct convolution into a buffer of exactly
`len(a)+len(b)-1` entries — entry `k` accumulating every product
`a[i]*b[j]` with `i+j = k` — and the canonicalized result equals the
algebraic product.  For a zero-polynomial operand `[0]` the buffer is
undersized and the write at index `i+j` is out of bounds (see the
counterexample). -/
theorem multiply_brute_force_correct (a b : List ℚ) (ha : goodP a) (hb : goodP b)
    (_hsz : a.length + b.length - 1 ≤ 200) :
    mulM a b = some (shortenFn (multiply_brute_force a b (a.length + b.length - 1))) ∧
    toPoly (shortenFn (multiply_brute_force a b (a.length + b.length - 1))) =
      toPoly a * toPoly b := by
  refine ⟨mulM_some_of_goodP ha hb, ?_⟩
  rw [toPoly_shortenFn]
  exact toPoly_multiply_brute_force (by omega)

/-- C8 counterexample: multiplying the zero polynomial `[0]` by `[1,1]`
sizes the buffer at `deg+deg-1 = 1` entries while the accumulation
writes index `0+1 = 1`, out of bounds. -/
theorem multiply_zero_counterexample : mulM [(0:ℚ)] [1,1] = none := by
  norm_num [mulM, deg]

/-- Witness for C8's amended theorem at `(1+x)·(x-1)`. -/
theorem multiply_brute_force_correct_witness :
    (mulM [(1:ℚ),1] [-1,1] =
      some (shortenFn (multiply_brute_force [(1:ℚ),1] [-1,1]
        ([(1:ℚ),1].length + [(-1:ℚ),1].length - 1)))) ∧
    toPoly (shortenFn (multiply_brute_force [(1:ℚ),1] [-1,1]
        ([(1:ℚ),1].length + [(-1:ℚ),1].length - 1))) =
      toPoly [(1:ℚ),1] * toPoly [(-1:ℚ),1] :=
  multiply_brute_force_correct [1,1] [-1,1] (by decide) (by decide) (by decide)

/-- Witness for C2 at `p = 1 + x`, `n = 2`. -/
theorem reciprocal_correct_witness :
    ∃ R, reciprocal [(1:ℚ),1] ((2 : ℕ) : Int) = some R ∧
      (X : ℚ[X]) ^ 2 ∣ toPoly R * toPoly [(1:ℚ),1] - 1 :=
  reciprocal_correct [1,1] 2 (by norm_num) (by decide) (by norm_num)

/-- C4: `operator+` reads past the end of the shorter right-hand operand:
`[1,2] + [3]` reads `other.coeffs[1]` of the length-1 vector `[3]`
(undefined behavior, modelled as `none`), so the claimed pad-and-combine
semantics — and with it commutativity — fails; the symmetric call
`[3] + [1,2]` succeeds and returns `[4,2]`. -/
theorem add_out_of_bounds_bug :
    addM [(1:ℚ),2] [3] = none ∧ addM [(3:ℚ)] [1,2] = some [4,2] := by
  constructor
  · norm_num [addM]
  · norm_num [addM, padTo, shorten, shortenFn, shortenAux]

/-- C10: mutating operators do access out-of-bounds indices on reachable
inputs: `+=` on two default-constructed (empty) polynomials runs
`shorten`, which reads `back()` of an empty vector; scalar `*=` on an
empty polynomial does the same; and `-=` with a shorter right operand
reads past that operand's end. -/
theorem mutators_out_of_bounds_bug :
    addM ([] : List ℚ) [] = none ∧ smulM 2 ([] : List ℚ) = none ∧
      subM [(2:ℚ),3,4] [1] = none := by
  refine ⟨?_, ?_, ?_⟩
  · norm_num [addM, padTo, shorten]
  · norm_num [smulM, shorten]
  · norm_num [subM]

/-- C3 counterexample: on the empty point set the tree build recurses
forever on the empty range `[0, 0)` (every fuel returns `none`), so
`multi_point_evaluation` never returns — in particular it does not
return the empty sequence the claim requires. -/
theorem multi_point_evaluation_empty_counterexample :
    multi_point_evaluation [(1:ℚ),2,3] [] = none := by
  norm_num [multi_point_evaluation, linear_factors_product]

/-- Witness for C3's amended theorem: `3x²+2x+1` at the point set `[2]`
evaluates to `[17]`. -/
theorem multi_point_evaluation_correct_witness :
    multi_point_evaluation [(1:ℚ),2,3] [2] = some [17] ∧
      [(17:ℚ)] = [(2:ℚ)].map (evaluate [(1:ℚ),2,3]) := by
  have h : multi_point_evaluation [(1:ℚ),2,3] [2] = some [17] := by
    norm_num [multi_point_evaluation, linear_factors_product, multi_point_evaluation_rec,
      evaluate]
  exact ⟨h, multi_point_evaluation_correct _ _ _ h⟩

/-- C5 counterexample: running the doubling step from `sz = 2` to
`sz = 4` on `p = 1+x+x²+x³`, `R = 1-x` (the state the real run
`reciprocal(p, 4)` reaches after its first iteration) stores
`R = [1,-1,0,0,1,-1]`, which has 6 > 4 coefficients: the stored `R` is
NOT truncated mod `x^sz`. -/
theorem reciprocal_step_length_counterexample :
    reciprocalLoop [(1:ℚ),1,1,1] 4 (0 + 1) 2 [1,-1] = some [1,-1,0,0,1,-1] ∧
      ¬ ([(1:ℚ),-1,0,0,1,-1].length ≤ 4) := by
  have hA : smulM 2 [(1:ℚ),-1] = some [2,-2] := by
    norm_num [smulM, shorten, shortenFn, shortenAux]
  have hRR : mulM [(1:ℚ),-1] [1,-1] = some [1,-2,1] := by
    rw [mulM_eval (k := 3) (by norm_num [deg]) (by norm_num)]
    norm_num [multiply_brute_force, shorten, shortenFn, shortenAux, convCoeff,
      Finset.sum_range_succ, List.range_succ]
  have ht : truncMod [(1:ℚ),1,1,1] ((2 * 2 : ℕ) : Int) = [1,1,1,1] := by
    norm_num [truncMod]
  have hB : mulM [(1:ℚ),-2,1] [1,1,1,1] = some [1,-1,0,0,-1,1] := by
    rw [mulM_eval (k := 6) (by norm_num [deg]) (by norm_num)]
    norm_num [multiply_brute_force, shorten, shortenFn, shortenAux, convCoeff,
      Finset.sum_range_succ, List.range_succ]
  have hS : subM [(2:ℚ),-2] [1,-1,0,0,-1,1] = some [1,-1,0,0,1,-1] := by
    norm_num [subM, padTo, shorten, shortenFn, shortenAux]
  refine ⟨?_, by norm_num⟩
  rw [reciprocalLoop_step _ _ _ _ _ (by norm_num)]
  rw [hA, Option.some_bind, hRR, Option.some_bind, ht, hB, Option.some_bind, hS,
    Option.some_bind]
  exact reciprocalLoop_exit (by norm_num)

/-- C1: at `f = x + x²`, `g = 1 + x` the division identity fails on the
code.  The true factorization is `f = g · x` (so the correct quotient is
`[0,1]` with zero remainder), but `divide` returns the quotient `[1]`:
the `% n` truncation inside `divide` shortens `[1,0]` to `[1]`, and the
final `rev()` then reattaches the coefficients at the wrong positions.
`divide_modulo` then computes `g·q = [1,1]`, which is shorter than `f`,
and the subtraction `f - g·q` reads past the end of `g·q`'s coefficient
vector (undefined behavior, modelled as `none`): no pair `(q, r)` with
`effectiveLength(r) < effectiveLength(g)` is ever produced. -/
theorem divide_identity_bug :
    divide [(0:ℚ),1,1] [1,1] = some [1] ∧
    divide_modulo [(0:ℚ),1,1] [1,1] = none ∧
    toPoly [(0:ℚ),1,1] = toPoly [(1:ℚ),1] * toPoly [(0:ℚ),1] := by
  have hrevf : rev [(0:ℚ),1,1] = some [1,1] := by
    norm_num [rev, shorten, shortenFn, shortenAux]
  have hrevg : rev [(1:ℚ),1] = some [1,1] := by
    norm_num [rev, shorten, shortenFn, shortenAux]
  have hmulA : mulM [(1:ℚ)] [1] = some [1] := by
    rw [mulM_eval (k := 1) (by norm_num [deg]) (by norm_num)]
    norm_num [multiply_brute_force, shorten, shortenFn, shortenAux, convCoeff,
      Finset.sum_range_succ, List.range_succ]
  have hmulB : mulM [(1:ℚ)] [1,1] = some [1,1] := by
    rw [mulM_eval (k := 2) (by norm_num [deg]) (by norm_num)]
    norm_num [multiply_brute_force, shorten, shortenFn, shortenAux, convCoeff,
      Finset.sum_range_succ, List.range_succ]
  have hloop : reciprocalLoop [(1:ℚ),1] 2 ((2 : Int).toNat + 1) 1 [1] = some [1,-1] := by
    rw [reciprocalLoop_step _ _ _ _ _ (by norm_num)]
    have hsm : smulM 2 [(1:ℚ)] = some [2] := by
      norm_num [smulM, shorten, shortenFn, shortenAux]
    have ht : truncMod [(1:ℚ),1] ((2 * 1 : ℕ) : Int) = [1,1] := by
      norm_num [truncMod]
    have hS : subM [(2:ℚ)] [1,1] = some [1,-1] := by
      norm_num [subM, padTo, shorten, shortenFn, shortenAux]
    rw [hsm, Option.some_bind, hmulA, Option.some_bind, ht, hmulB, Option.some_bind, hS,
      Option.some_bind]
    exact reciprocalLoop_exit (by norm_num)
  have hrec : reciprocal [(1:ℚ),1] 2 = some [1,-1] := by
    rw [reciprocal, if_neg (by norm_num)]
    rw [show ((1:ℚ) / 1) = 1 from by norm_num]
    rw [hloop]
    simp only [Option.map_some']
    norm_num [truncMod]
  have hmulw : mulM [(1:ℚ),1] [1,-1] = some [1,0,-1] := by
    rw [mulM_eval (k := 3) (by norm_num [deg]) (by norm_num)]
    norm_num [multiply_brute_force, shorten, shortenFn, shortenAux, convCoeff,
      Finset.sum_range_succ, List.range_succ]
  have htr : truncMod [(1:ℚ),0,-1] 2 = [1] := by
    norm_num [truncMod, shortenFn, shortenAux]
  have hdiv : divide [(0:ℚ),1,1] [1,1] = some [1] := by
    unfold divide
    rw [show ((deg [(0:ℚ),1,1] : Int) - (deg [(1:ℚ),1] : Int) + 1) = 2 from by
      norm_num [deg]]
    simp only [hrevf, Option.some_bind, hrevg, hrec, hmulw]
    rw [htr]
    norm_num [rev, shorten, shortenFn, shortenAux]
  have hgq : mulM [(1:ℚ),1] [1] = some [1,1] := by
    rw [mulM_eval (k := 2) (by norm_num [deg]) (by norm_num)]
    norm_num [multiply_brute_force, shorten, shortenFn, shortenAux, convCoeff,
      Finset.sum_range_succ, List.range_succ]
  have hsubnone : subM [(0:ℚ),1,1] [1,1] = none := by
    norm_num [subM]
  refine ⟨hdiv, ?_, ?_⟩
  · unfold divide_modulo
    simp only [hdiv, Option.some_bind, hgq, hsubnone, Option.map_none']
  · simp [toPoly]

/-- C6: with an undersized dividend the commented-out precondition check
never fires; instead of an explicit "undersized dividend" error the code
silently returns a result.  At `f = [1]`, `g = [1,1,1]` (a dividend two
shorter than the divisor), `n = deg(f)-deg(g)+1 = -1` is negative, the
negative `% n` comparisons are taken on `size_t`, and `divide_modulo`
returns the garbage pair `q = [1]`, `r = [0,-1,-1]` — a value, not an
error. -/
theorem divide_modulo_no_error_bug :
    divide_modulo [(1:ℚ)] [1,1,1] = some ([1], [0,-1,-1]) := by
  have hrevf : rev [(1:ℚ)] = some [1] := by
    norm_num [rev, shorten, shortenFn, shortenAux]
  have hrevg : rev [(1:ℚ),1,1] = some [1,1,1] := by
    norm_num [rev, shorten, shortenFn, shortenAux]
  have hrec : reciprocal [(1:ℚ),1,1] (-1) = some [1] := by
    rw [reciprocal, if_neg (by norm_num)]
    rw [show ((1:ℚ) / 1) = 1 from by norm_num]
    rw [reciprocalLoop_exit (by norm_num)]
    simp only [Option.map_some']
    norm_num [truncMod]
  have hm1 : mulM [(1:ℚ)] [1] = some [1] := by
    rw [mulM_eval (k := 1) (by norm_num [deg]) (by norm_num)]
    norm_num [multiply_brute_force, shorten, shortenFn, shortenAux, convCoeff,
      Finset.sum_range_succ, List.range_succ]
  have ht : truncMod [(1:ℚ)] (-1) = [1] := by
    norm_num [truncMod]
  have hdiv : divide [(1:ℚ)] [1,1,1] = some [1] := by
    unfold divide
    rw [show ((deg [(1:ℚ)] : Int) - (deg [(1:ℚ),1,1] : Int) + 1) = -1 from by
      norm_num [deg]]
    simp only [hrevf, Option.some_bind, hrevg, hrec, hm1]
    rw [ht]
    norm_num [rev, shorten, shortenFn, shortenAux]
  have hgq : mulM [(1:ℚ),1,1] [1] = some [1,1,1] := by
    rw [mulM_eval (k := 3) (by norm_num [deg]) (by norm_num)]
    norm_num [multiply_brute_force, shorten, shortenFn, shortenAux, convCoeff,
      Finset.sum_range_succ, List.range_succ]
  have hsub : subM [(1:ℚ)] [1,1,1] = some [0,-1,-1] := by
    norm_num [subM, padTo, shorten, shortenFn, shortenAux]
  unfold divide_modulo
  simp only [hdiv, Option.some_bind, hgq, hsub, Option.map_some']

/-- Witness for C7's amended theorem: one concrete canonical output for
each listed operation. -/
theorem canonical_after_mutators_witness :
    canonical [(4:ℚ),2] ∧ canonical [(2:ℚ),-2] ∧ canonical [(2:ℚ)] ∧
      canonical [(1:ℚ)/2] ∧ canonical [(-1:ℚ),0,1] ∧ canonical [(1:ℚ)] ∧
      canonical [(0:ℚ)] ∧ canonical (truncMod [(1:ℚ),2] 1) ∧ canonical [(3:ℚ),6] := by
  have hrev1 : rev [(1:ℚ)] = some [1] := by
    norm_num [rev, shorten, shortenFn, shortenAux]
  have hm11 : mulM [(1:ℚ)] [1] = some [1] := by
    rw [mulM_eval (k := 1) (by norm_num [deg]) (by norm_num)]
    norm_num [multiply_brute_force, shorten, shortenFn, shortenAux, convCoeff,
      Finset.sum_range_succ, List.range_succ]
  have hrec7 : reciprocal [(1:ℚ)] 1 = some [1] := by
    rw [reciprocal, if_neg (by norm_num)]
    rw [show ((1:ℚ) / 1) = 1 from by norm_num]
    rw [reciprocalLoop_exit (by norm_num)]
    simp only [Option.map_some']
    norm_num [truncMod]
  have hdiv7 : divide [(1:ℚ)] [1] = some [1] := by
    unfold divide
    rw [show ((deg [(1:ℚ)] : Int) - (deg [(1:ℚ)] : Int) + 1) = 1 from by norm_num [deg]]
    simp only [hrev1, Option.some_bind, hrec7, hm11]
    rw [show truncMod [(1:ℚ)] 1 = [1] from by norm_num [truncMod]]
    exact hrev1
  have hdm7 : divide_modulo [(1:ℚ)] [1] = some ([1], [0]) := by
    unfold divide_modulo
    have hs : subM [(1:ℚ)] [1] = some [0] := by
      norm_num [subM, padTo, shorten, shortenFn, shortenAux]
    simp only [hdiv7, Option.some_bind, hm11, hs, Option.map_some']
  obtain ⟨h1, h2, h3, h4, h5, h6, h7, h8, h9⟩ := canonical_after_mutators
  refine ⟨h1 [3] [1,2] _ ?_, h2 [3] [1,2] _ ?_, h3 2 [1] _ ?_, h4 2 [1] _ ?_,
    h5 [1,1] [-1,1] _ ?_, h6 [1] [1] _ hdiv7, h7 [1] [1] [1] [0] hdm7,
    h8 [1,2] 1 (by decide), h9 [5,3,3] [3,6] (by decide) (by norm_num) ?_⟩
  · norm_num [addM, padTo, shorten, shortenFn, shortenAux]
  · norm_num [subM, padTo, shorten, shortenFn, shortenAux]
  · norm_num [smulM, shorten, shortenFn, shortenAux]
  · norm_num [sdivM, smulM, shorten, shortenFn, shortenAux]
  · rw [mulM_eval (k := 3) (by norm_num [deg]) (by norm_num)]
    norm_num [multiply_brute_force, shorten, shortenFn, shortenAux, convCoeff,
      Finset.sum_range_succ, List.range_succ]
  · rw [derivation_eq]
    norm_num

end PolySpec
